import Mathlib

/-!
Shallow embedding of the russh-server core (src/main.rs): the session
registry shared by all connection handlers, the broadcast fan-out in
`Server::post`, the authentication decision policy (`auth_password`,
`auth_publickey`), the data relay (`data`), channel registration
(`channel_open_session`), connection-id assignment (`new_client`) and the
forwarded-channel task spawned by `tcpip_forward`.
-/

namespace RusshServer

/-- Connection identifier (the `usize` field `Server.id`). -/
abbrev ConnId := Nat

/-- Channel identifier assigned by the transport engine (`ChannelId`). -/
abbrev ChannelId := Nat

/-- Opaque send-handle for a channel (`russh::server::Handle`), modelled as
an abstract identifier: the core only stores and forwards it. -/
abbrev Handle := Nat

/-- The shared session registry: the contents of the
`HashMap<(usize, ChannelId), Handle>` behind `Server.clients`, as an
association list with unique keys maintained by `regInsert`. -/
abbrev Registry := List ((ConnId × ChannelId) × Handle)

/-- Lookup in the registry map. -/
def regFind (r : Registry) (k : ConnId × ChannelId) : Option Handle :=
  match r with
  | [] => none
  | e :: es => if e.1 = k then some e.2 else regFind es k

/-- HashMap::insert semantics, as used in `channel_open_session`: if the key
is already present its value is silently replaced (the returned old value is
discarded by the caller), otherwise a new entry is added. -/
def regInsert (r : Registry) (k : ConnId × ChannelId) (v : Handle) : Registry :=
  match r with
  | [] => [(k, v)]
  | e :: es => if e.1 = k then (k, v) :: es else e :: regInsert es k v

/-- Keys of the registry. -/
def regKeys (r : Registry) : List (ConnId × ChannelId) :=
  r.map (fun e => e.1)

/-- Per-user credentials from the configuration file (`UserConfig`):
an optional plaintext password and a list of public-key fingerprints. -/
structure UserConfig where
  password : Option String
  keys : List String
  deriving DecidableEq

/-- The credential store: the `HashMap<String, UserConfig>` behind
`Server.users`, as an association list queried with `List.lookup`. -/
abbrev UserStore := List (String × UserConfig)

/-- The `russh::MethodSet` bitflags; only the constant `all` is used. -/
structure MethodSet where
  bits : Nat
  deriving DecidableEq

/-- MethodSet::all(): every authentication method bit set. -/
def MethodSet.all : MethodSet := ⟨31⟩

/-- Authentication decision (`russh::server::Auth`); the two variants the
core constructs. -/
inductive Auth where
  | Accept : Auth
  | Reject (proceed_with_methods : Option MethodSet) : Auth
  deriving DecidableEq

/-- The server / connection-handler state (`struct Server`): the shared
client registry, the shared user table, and the connection id of this
handler instance. -/
structure Server where
  clients : Registry
  users : UserStore
  id : Nat
  deriving DecidableEq

/-- Embedding of `Server::new_client`: the handler given to the new
connection is a clone of the current state (keeping the current `id`), and
the listener state increments its counter afterwards.  Returns
(handler, updated listener state). -/
def new_client (s : Server) : Server × Server :=
  (s, { s with id := s.id + 1 })

/-- Connection ids handed to the first `n` accepted connections, in order
of acceptance. -/
def handlerIds (s : Server) : Nat → List Nat
  | 0 => []
  | n + 1 =>
    let p := new_client s
    p.1.id :: handlerIds p.2 n

/-- Embedding of `channel_open_session`: registers the key
`(self.id, channel)` in the shared registry, bound to the session handle,
and always grants (`Ok((self, session, true))`). -/
def channel_open_session (s : Server) (channel : ChannelId) (handle : Handle) :
    Server × Bool :=
  ({ s with clients := regInsert s.clients (s.id, channel) handle }, true)

/-- Embedding of `auth_password`, mirroring the `Option` combinator chain of
the source: lookup the user, take the configured password, keep it only when
it equals the supplied password, map to Accept, default to Reject with all
methods offered for retry. -/
def auth_password (users : UserStore) (user password : String) : Auth :=
  (((((users.lookup user).bind (fun userconfig => userconfig.password)).filter
      (fun pw => pw == password)).map
      (fun _ => Auth.Accept)).getD
      (Auth.Reject (some MethodSet.all)))

/-- A public key, as the core sees it: only its fingerprint is inspected. -/
structure PublicKey where
  fingerprint : String
  deriving DecidableEq

/-- Embedding of `auth_publickey`: lookup the user, keep the entry only when
the presented fingerprint occurs in the configured key list, map to Accept,
default to Reject with all methods offered for retry. -/
def auth_publickey (users : UserStore) (user : String) (k : PublicKey) : Auth :=
  ((((users.lookup user).filter
      (fun userconfig => userconfig.keys.contains k.fingerprint)).map
      (fun _ => Auth.Accept)).getD
      (Auth.Reject (some MethodSet.all)))

/-- One delivery attempt made by the fan-out loop in `Server::post`: the
destination entry and the (ignored) result of `s.data(...)`. -/
structure Attempt where
  conn : ConnId
  channel : ChannelId
  msg : List Char
  ok : Bool
  deriving DecidableEq

/-- Embedding of the loop body of `Server::post`: iterate the registry and,
for every entry whose connection id differs from `self.id`, attempt delivery
of the message; the delivery result is discarded (`let _ = ...`) and the
loop continues unconditionally.  The `deliver` oracle stands for the
transport engine and says whether a given attempt succeeds. -/
def postAttempts (selfId : ConnId) (msg : List Char)
    (deliver : Handle → ChannelId → List Char → Bool) :
    Registry → List Attempt
  | [] => []
  | ((id, channel), s) :: rest =>
    if id ≠ selfId then
      { conn := id, channel := channel, msg := msg, ok := deliver s channel msg } ::
        postAttempts selfId msg deliver rest
    else
      postAttempts selfId msg deliver rest

/-- Destinations the fan-out in `Server::post` targets: the key of every
registry entry whose connection id differs from the sender. -/
def postDests (selfId : ConnId) (r : Registry) : List (ConnId × ChannelId) :=
  r.filterMap (fun e => if e.1.1 ≠ selfId then some e.1 else none)

/-- Unicode replacement character U+FFFD. -/
def replacementChar : Char := Char.ofNat 0xFFFD

/-- Continuation byte test: 0x80..=0xBF. -/
def isCont (b : Nat) : Bool := 0x80 ≤ b && b ≤ 0xBF

/-- Valid first continuation byte after a three-byte lead, per the UTF-8
validation the standard library performs inside `String::from_utf8_lossy`
(lead 0xE0 restricts to 0xA0..=0xBF, lead 0xED to 0x80..=0x9F). -/
def valid3First (b b1 : Nat) : Bool :=
  (b == 0xE0 && 0xA0 ≤ b1 && b1 ≤ 0xBF) ||
  (0xE1 ≤ b && b ≤ 0xEC && isCont b1) ||
  (b == 0xED && 0x80 ≤ b1 && b1 ≤ 0x9F) ||
  (0xEE ≤ b && b ≤ 0xEF && isCont b1)

/-- Valid first continuation byte after a four-byte lead (lead 0xF0
restricts to 0x90..=0xBF, lead 0xF4 to 0x80..=0x8F). -/
def valid4First (b b1 : Nat) : Bool :=
  (b == 0xF0 && 0x90 ≤ b1 && b1 ≤ 0xBF) ||
  (0xF1 ≤ b && b ≤ 0xF3 && isCont b1) ||
  (b == 0xF4 && 0x80 ≤ b1 && b1 ≤ 0x8F)

/-- One step of the lossy decoder inside `String::from_utf8_lossy`: given
the lead byte and the remaining bytes, produce the decoded scalar (or
U+FFFD for a maximal invalid subpart) and the bytes where decoding resumes
(after the valid sequence, or at the first byte that failed validation; an
incomplete trailing sequence consumes the rest). -/
def utf8DecodeOne (b : Nat) (rest : List Nat) : Char × List Nat :=
  if b < 0x80 then
    (Char.ofNat b, rest)
  else if 0xC2 ≤ b && b ≤ 0xDF then
    match rest with
    | [] => (replacementChar, [])
    | b1 :: rest1 =>
      if isCont b1 then
        (Char.ofNat ((b - 0xC0) * 64 + (b1 - 0x80)), rest1)
      else
        (replacementChar, b1 :: rest1)
  else if 0xE0 ≤ b && b ≤ 0xEF then
    match rest with
    | [] => (replacementChar, [])
    | b1 :: rest1 =>
      if valid3First b b1 then
        match rest1 with
        | [] => (replacementChar, [])
        | b2 :: rest2 =>
          if isCont b2 then
            (Char.ofNat ((b - 0xE0) * 4096 + (b1 - 0x80) * 64 + (b2 - 0x80)),
              rest2)
          else
            (replacementChar, b2 :: rest2)
      else
        (replacementChar, b1 :: rest1)
  else if 0xF0 ≤ b && b ≤ 0xF4 then
    match rest with
    | [] => (replacementChar, [])
    | b1 :: rest1 =>
      if valid4First b b1 then
        match rest1 with
        | [] => (replacementChar, [])
        | b2 :: rest2 =>
          if isCont b2 then
            match rest2 with
            | [] => (replacementChar, [])
            | b3 :: rest3 =>
              if isCont b3 then
                (Char.ofNat ((b - 0xF0) * 262144 + (b1 - 0x80) * 4096 +
                    (b2 - 0x80) * 64 + (b3 - 0x80)), rest3)
              else
                (replacementChar, b3 :: rest3)
          else
            (replacementChar, b2 :: rest2)
      else
        (replacementChar, b1 :: rest1)
  else
    (replacementChar, rest)

/-- Decoding one sequence consumes at least the lead byte: the resume list
is no longer than the input tail. -/
theorem utf8DecodeOne_length (b : Nat) (rest : List Nat) :
    (utf8DecodeOne b rest).2.length ≤ rest.length := by
  unfold utf8DecodeOne
  repeat' split
  all_goals try simp only [List.length_cons]
  all_goals omega

/-- Embedding of `String::from_utf8_lossy` over byte lists: decode maximal
valid UTF-8 sequences to their scalar values and emit one U+FFFD per
maximal invalid subpart, never failing. -/
def utf8Lossy : List Nat → List Char
  | [] => []
  | b :: rest =>
    (utf8DecodeOne b rest).1 :: utf8Lossy (utf8DecodeOne b rest).2
termination_by l => l.length
decreasing_by
  simp only [List.length_cons]
  exact Nat.lt_succ_of_le (utf8DecodeOne_length _ _)

/-- One step of the UTF-8 well-formedness grammar (RFC 3629): given a lead
byte and the remaining bytes, return the bytes after one valid encoded
scalar, or none when no valid sequence starts here. -/
def utf8ValidStep (b : Nat) (rest : List Nat) : Option (List Nat) :=
  if b < 0x80 then
    some rest
  else if 0xC2 ≤ b && b ≤ 0xDF then
    match rest with
    | b1 :: rest1 => if isCont b1 then some rest1 else none
    | _ => none
  else if 0xE0 ≤ b && b ≤ 0xEF then
    match rest with
    | b1 :: b2 :: rest2 =>
      if valid3First b b1 && isCont b2 then some rest2 else none
    | _ => none
  else if 0xF0 ≤ b && b ≤ 0xF4 then
    match rest with
    | b1 :: b2 :: b3 :: rest3 =>
      if valid4First b b1 && isCont b2 && isCont b3 then some rest3 else none
    | _ => none
  else
    none

/-- A valid sequence consumes at least its lead byte. -/
theorem utf8ValidStep_length (b : Nat) (rest r2 : List Nat)
    (h : utf8ValidStep b rest = some r2) : r2.length ≤ rest.length := by
  unfold utf8ValidStep at h
  repeat' split at h
  all_goals try cases h
  all_goals try simp only [List.length_cons]
  all_goals omega

/-- Well-formed UTF-8 byte sequences, per the byte-range grammar
(RFC 3629): a concatenation of valid encoded scalar values. -/
def utf8ValidB : List Nat → Bool
  | [] => true
  | b :: rest =>
    match h : utf8ValidStep b rest with
    | some rest2 => utf8ValidB rest2
    | none => false
termination_by l => l.length
decreasing_by
  simp only [List.length_cons]
  exact Nat.lt_succ_of_le (utf8ValidStep_length _ _ _ h)

/-- The line built at the top of the `data` handler:
`format!("Got data: \x7b\x7d\r\n", String::from_utf8_lossy(data))`. -/
def formatGotData (bytes : List Nat) : List Char :=
  ("Got data: ").data ++ utf8Lossy bytes ++ ['\r', '\n']

/-- Embedding of the `data` handler: format the line, run the fan-out
(failures ignored), echo the line on the originating channel via
`session.data`, and return Ok.  The result records the fan-out attempts,
the echo delivery, and the handler outcome. -/
def dataHandler (selfId : ConnId) (r : Registry) (channel : ChannelId)
    (bytes : List Nat) (deliver : Handle → ChannelId → List Char → Bool) :
    Except String (List Attempt × ((ConnId × ChannelId) × List Char)) :=
  let line := formatGotData bytes
  Except.ok (postAttempts selfId line deliver r, ((selfId, channel), line))

/-- All deliveries of the formatted line produced by one `data` event:
the fan-out destinations (every registered channel not owned by the sender)
followed by the explicit echo to the originating channel. -/
def dataDeliveries (selfId : ConnId) (r : Registry) (channel : ChannelId)
    (bytes : List Nat) : List ((ConnId × ChannelId) × List Char) :=
  (postDests selfId r).map (fun d => (d, formatGotData bytes)) ++
    [((selfId, channel), formatGotData bytes)]

/-- Operations the forwarded-channel task issues against the transport
engine. -/
inductive FwdOp where
  | openCh (addr : String) (port : Nat) (origAddr : String) (origPort : Nat) : FwdOp
  | sendData (payload : String) : FwdOp
  | eofOp : FwdOp
  deriving DecidableEq

/-- Outcome of one run of the spawned forwarded-channel task: the engine
operations it issued, and whether it panicked. -/
structure TaskRun where
  ops : List FwdOp
  panicked : Bool
  deriving DecidableEq

/-- The literal greeting payload written into the forwarded channel. -/
def greeting : String := "Hello from a forwarded port"

/-- Embedding of the task body spawned by `tcpip_forward`:
`channel_open_forwarded_tcpip(address, port, "1.2.3.4", 1234)` is awaited
and unwrapped — on failure the task panics having issued only the open.  On
success the greeting is written and end-of-data signalled, both results
discarded (`let _ = ...`), so the write and eof outcomes never change the
behaviour. -/
def forwardTask (addr : String) (port : Nat)
    (openOk _wOk _eOk : Bool) : TaskRun :=
  if openOk then
    { ops := [FwdOp.openCh addr port "1.2.3.4" 1234, FwdOp.sendData greeting,
              FwdOp.eofOp],
      panicked := false }
  else
    { ops := [FwdOp.openCh addr port "1.2.3.4" 1234], panicked := true }

/-- Embedding of the `tcpip_forward` handler: it spawns the task and
immediately returns `finished_bool(true, session)` — the grant does not
depend on anything the task later does. -/
def tcpip_forward (addr : String) (port : Nat)
    (openOk wOk eOk : Bool) : Bool × TaskRun :=
  (true, forwardTask addr port openOk wOk eOk)

/-- Fold registering a list of (key, handle) events into the shared
registry, each via the insert in `channel_open_session`. -/
def registerAll (r : Registry) (evs : List ((ConnId × ChannelId) × Handle)) :
    Registry :=
  evs.foldl (fun acc e => regInsert acc e.1 e.2) r

/-- Events a connection handler processes; only channel-open touches the
registry. -/
inductive HEvent where
  | openSession (conn : ConnId) (channel : ChannelId) (handle : Handle) : HEvent
  | dataEvent (conn : ConnId) (channel : ChannelId) (bytes : List Nat) : HEvent
  | authPw (user password : String) : HEvent
  | authPk (user : String) (k : PublicKey) : HEvent
  | forward (addr : String) (port : Nat) : HEvent

/-- Effect of each core handler event on the shared session registry:
`channel_open_session` inserts; no other core operation mutates it. -/
def stepRegistry (r : Registry) : HEvent → Registry
  | HEvent.openSession conn channel handle => regInsert r (conn, channel) handle
  | _ => r

/-! Helper lemmas about the registry map. -/

theorem regFind_regInsert_self (r : Registry) (k : ConnId × ChannelId)
    (v : Handle) : regFind (regInsert r k v) k = some v := by
  induction r with
  | nil => simp [regInsert, regFind]
  | cons e es ih =>
    by_cases h : e.1 = k
    · simp [regInsert, h, regFind]
    · simp [regInsert, h, regFind, ih]

theorem regFind_regInsert_ne (r : Registry) (k k' : ConnId × ChannelId)
    (v : Handle) (hne : k' ≠ k) :
    regFind (regInsert r k v) k' = regFind r k' := by
  have hne2 : ¬(k = k') := fun h => hne h.symm
  induction r with
  | nil => simp [regInsert, regFind, hne2]
  | cons e es ih =>
    by_cases h : e.1 = k
    · have he : ¬(e.1 = k') := by rw [h]; exact hne2
      simp [regInsert, h, regFind, hne2, he]
    · by_cases h2 : e.1 = k'
      · simp [regInsert, h, regFind, h2, hne]
      · simp [regInsert, h, regFind, h2, ih]

theorem regInsert_length_of_fresh (r : Registry) (k : ConnId × ChannelId)
    (v : Handle) (hfresh : regFind r k = none) :
    (regInsert r k v).length = r.length + 1 := by
  induction r with
  | nil => simp [regInsert]
  | cons e es ih =>
    by_cases h : e.1 = k
    · simp [regFind, h] at hfresh
    · simp [regFind, h] at hfresh
      simp [regInsert, h, ih hfresh]

theorem regKeys_regInsert_mem (r : Registry) (k k' : ConnId × ChannelId)
    (v : Handle) (hk : k' ∈ regKeys r) : k' ∈ regKeys (regInsert r k v) := by
  induction r with
  | nil => simp [regKeys] at hk
  | cons e es ih =>
    by_cases h : e.1 = k
    · simp [regKeys, regInsert, h] at hk ⊢
      rcases hk with hk | hk
      · exact Or.inl (h ▸ hk)
      · exact Or.inr hk
    · simp [regKeys, regInsert, h] at hk ⊢
      rcases hk with hk | hk
      · exact Or.inl hk
      · exact Or.inr (by simpa [regKeys] using ih (by simpa [regKeys] using hk))

/-- Registering keys not equal to `k` leaves the binding of `k` unchanged. -/
theorem registerAll_find_of_not_mem (evs : List ((ConnId × ChannelId) × Handle))
    (k : ConnId × ChannelId) :
    ∀ r : Registry, k ∉ evs.map (fun e => e.1) →
      regFind (registerAll r evs) k = regFind r k := by
  induction evs with
  | nil => intro r _; rfl
  | cons e es ih =>
    intro r hk
    simp only [List.map_cons, List.mem_cons] at hk
    push_neg at hk
    have : registerAll r (e :: es) = registerAll (regInsert r e.1 e.2) es := rfl
    rw [this, ih _ hk.2, regFind_regInsert_ne _ _ _ _ hk.1]

/-- With pairwise-distinct keys, every registered binding is found in the
final registry. -/
theorem registerAll_find (evs : List ((ConnId × ChannelId) × Handle))
    (hnd : (evs.map (fun e => e.1)).Nodup) :
    ∀ r : Registry, ∀ e ∈ evs, regFind (registerAll r evs) e.1 = some e.2 := by
  induction evs with
  | nil => intro r e he; simp at he
  | cons e0 es ih =>
    intro r e he
    simp only [List.map_cons, List.nodup_cons] at hnd
    have hstep : registerAll r (e0 :: es) = registerAll (regInsert r e0.1 e0.2) es := rfl
    rcases List.mem_cons.mp he with he | he
    · subst he
      rw [hstep, registerAll_find_of_not_mem es e.1 _ hnd.1,
        regFind_regInsert_self]
    · rw [hstep]
      exact ih hnd.2 _ e he

/-- With pairwise-distinct keys all fresh for the starting registry, the
final size is the starting size plus the number of registrations. -/
theorem registerAll_length (evs : List ((ConnId × ChannelId) × Handle))
    (hnd : (evs.map (fun e => e.1)).Nodup) :
    ∀ r : Registry, (∀ e ∈ evs, regFind r e.1 = none) →
      (registerAll r evs).length = r.length + evs.length := by
  induction evs with
  | nil => intro r _; rfl
  | cons e0 es ih =>
    intro r hfresh
    simp only [List.map_cons, List.nodup_cons] at hnd
    have hstep : registerAll r (e0 :: es) = registerAll (regInsert r e0.1 e0.2) es := rfl
    rw [hstep, ih hnd.2 _ ?_]
    · rw [regInsert_length_of_fresh _ _ _ (hfresh e0 (List.mem_cons_self _ _))]
      simp [List.length_cons]
      omega
    · intro e he
      have hne : e.1 ≠ e0.1 := by
        intro hh
        exact hnd.1 (hh ▸ List.mem_map_of_mem (fun x => x.1) he)
      rw [regFind_regInsert_ne _ _ _ _ hne]
      exact hfresh e (List.mem_cons_of_mem _ he)

/-- C1 counterexample: with `(0, 3) ↦ 5` already registered for connection
0, a second registration of key `(0, 3)` with handle 7 is not fatal — it
grants and silently replaces the stored handle. -/
theorem register_duplicate_cex :
    (channel_open_session { clients := [((0, 3), 5)], users := [], id := 0 } 3 7).2 = true
    ∧ (channel_open_session { clients := [((0, 3), 5)], users := [], id := 0 } 3 7).1.clients
        = [((0, 3), 7)]
    ∧ regFind (channel_open_session { clients := [((0, 3), 5)], users := [], id := 0 }
        3 7).1.clients (0, 3) = some 7 := by
  exact ⟨rfl, rfl, rfl⟩

/-- C1 (amended): when the key `(self.id, channel)` is already registered,
`channel_open_session` still grants and `HashMap::insert` silently replaces
the stored handle with the new one, leaving every other key unchanged; no
error or assertion occurs. -/
theorem register_duplicate_replaces (s : Server) (ch : ChannelId)
    (hnew hold : Handle)
    (hdup : regFind s.clients (s.id, ch) = some hold) :
    (channel_open_session s ch hnew).2 = true
    ∧ regFind (channel_open_session s ch hnew).1.clients (s.id, ch) = some hnew
    ∧ ∀ k, k ≠ (s.id, ch) →
        regFind (channel_open_session s ch hnew).1.clients k = regFind s.clients k := by
  refine ⟨rfl, ?_, ?_⟩
  · exact regFind_regInsert_self _ _ _
  · intro k hk
    exact regFind_regInsert_ne _ _ _ _ hk

/-- Witness for the amended C1 at a concrete duplicate registration. -/
theorem register_duplicate_replaces_witness :
    (channel_open_session { clients := [((0, 3), 5)], users := [], id := 0 } 3 9).2 = true
    ∧ regFind (channel_open_session { clients := [((0, 3), 5)], users := [], id := 0 }
        3 9).1.clients (0, 3) = some 9
    ∧ ∀ k, k ≠ ((0 : ConnId), (3 : ChannelId)) →
        regFind (channel_open_session { clients := [((0, 3), 5)], users := [], id := 0 }
          3 9).1.clients k
          = regFind [((0, 3), 5)] k :=
  register_duplicate_replaces { clients := [((0, 3), 5)], users := [], id := 0 } 3 9 5 rfl

/-- C10: the k-th accepted connection receives connection id `start + k`:
ids are assigned by the monotonically increasing process-wide counter, are
strictly increasing in order of acceptance, and are pairwise distinct. -/
theorem new_client_ids (s : Server) (n : Nat) :
    handlerIds s n = (List.range n).map (fun k => s.id + k)
    ∧ List.Pairwise (· < ·) (handlerIds s n)
    ∧ (handlerIds s n).Nodup := by
  have heq : ∀ m : Nat, ∀ t : Server,
      handlerIds t m = (List.range m).map (fun k => t.id + k) := by
    intro m
    induction m with
    | zero => intro t; rfl
    | succ m ih =>
      intro t
      have hfun : (fun k => t.id + 1 + k) = (fun k => t.id + k) ∘ Nat.succ := by
        funext k
        simp [Function.comp]
        omega
      simp [handlerIds, new_client, ih, List.range_succ_eq_map, List.map_map, hfun]
  have hpw : List.Pairwise (· < ·) (handlerIds s n) := by
    rw [heq n s, List.pairwise_map]
    exact (List.pairwise_lt_range n).imp (fun h => by omega)
  exact ⟨heq n s, hpw, hpw.imp (fun h => Nat.ne_of_lt h)⟩

/-- C3: password authentication accepts exactly when the user exists, has a
configured password, and the supplied password equals it; every other case
(unknown user, no configured password, mismatch) rejects, offering all
methods for retry.  In particular an unknown user is always rejected. -/
theorem auth_password_correct (users : UserStore) (user password : String) :
    (auth_password users user password = Auth.Accept ↔
      ∃ uc, users.lookup user = some uc ∧ uc.password = some password)
    ∧ (users.lookup user = none →
      auth_password users user password = Auth.Reject (some MethodSet.all))
    ∧ (auth_password users user password = Auth.Accept ∨
      auth_password users user password = Auth.Reject (some MethodSet.all)) := by
  unfold auth_password
  cases hu : users.lookup user with
  | none => simp [Option.bind, Option.filter]
  | some uc =>
    cases hp : uc.password with
    | none => simp [Option.bind, Option.filter, hp]
    | some pw =>
      by_cases hpw : pw = password
      · subst hpw
        simp [Option.bind, Option.filter, hp]
      · simp [Option.bind, Option.filter, hp, hpw]

/-- Witness for C3 at a concrete store: "alice" with password "secret"
accepts on "secret"; an unknown user rejects. -/
theorem auth_password_correct_witness :
    ((auth_password [("alice", { password := some "secret", keys := [] })]
        "alice" "secret" = Auth.Accept ↔
      ∃ uc, ([("alice", { password := some "secret", keys := [] })] :
          UserStore).lookup "alice" = some uc ∧ uc.password = some "secret")
    ∧ (([("alice", { password := some "secret", keys := [] })] :
          UserStore).lookup "alice" = none →
      auth_password [("alice", { password := some "secret", keys := [] })]
        "alice" "secret" = Auth.Reject (some MethodSet.all))
    ∧ (auth_password [("alice", { password := some "secret", keys := [] })]
        "alice" "secret" = Auth.Accept ∨
      auth_password [("alice", { password := some "secret", keys := [] })]
        "alice" "secret" = Auth.Reject (some MethodSet.all))) :=
  auth_password_correct [("alice", { password := some "secret", keys := [] })]
    "alice" "secret"

/-- C4: public-key authentication accepts exactly when the user exists and
the presented fingerprint is a member of the configured key list; any other
case rejects (offering all methods for retry), in particular an unknown
user or a user with an empty fingerprint list. -/
theorem auth_publickey_correct (users : UserStore) (user : String)
    (k : PublicKey) :
    (auth_publickey users user k = Auth.Accept ↔
      ∃ uc, users.lookup user = some uc ∧ k.fingerprint ∈ uc.keys)
    ∧ (users.lookup user = none →
      auth_publickey users user k = Auth.Reject (some MethodSet.all))
    ∧ (∀ uc, users.lookup user = some uc → uc.keys = [] →
      auth_publickey users user k = Auth.Reject (some MethodSet.all))
    ∧ (auth_publickey users user k = Auth.Accept ∨
      auth_publickey users user k = Auth.Reject (some MethodSet.all)) := by
  unfold auth_publickey
  cases hu : users.lookup user with
  | none => simp [Option.filter]
  | some uc =>
    by_cases hmem : k.fingerprint ∈ uc.keys
    · refine ⟨?_, ?_, ?_, ?_⟩
      · simp [Option.filter, hmem]
      · intro h; cases h
      · intro uc2 h2 hnil
        injection h2 with h2
        subst h2
        rw [hnil] at hmem
        cases hmem
      · simp [Option.filter, hmem]
    · refine ⟨?_, ?_, ?_, ?_⟩
      · simp [Option.filter, hmem]
      · intro h; cases h
      · intro _ _ _
        simp [Option.filter, hmem]
      · simp [Option.filter, hmem]

/-- Witness for C4 at a concrete store: "bob" with one configured
fingerprint accepts that fingerprint. -/
theorem auth_publickey_correct_witness :
    ((auth_publickey [("bob", { password := none, keys := ["fp1"] })]
        "bob" { fingerprint := "fp1" } = Auth.Accept ↔
      ∃ uc, ([("bob", { password := none, keys := ["fp1"] })] :
          UserStore).lookup "bob" = some uc ∧ "fp1" ∈ uc.keys)
    ∧ (([("bob", { password := none, keys := ["fp1"] })] :
          UserStore).lookup "bob" = none →
      auth_publickey [("bob", { password := none, keys := ["fp1"] })]
        "bob" { fingerprint := "fp1" } = Auth.Reject (some MethodSet.all))
    ∧ (∀ uc, ([("bob", { password := none, keys := ["fp1"] })] :
          UserStore).lookup "bob" = some uc → uc.keys = [] →
      auth_publickey [("bob", { password := none, keys := ["fp1"] })]
        "bob" { fingerprint := "fp1" } = Auth.Reject (some MethodSet.all))
    ∧ (auth_publickey [("bob", { password := none, keys := ["fp1"] })]
        "bob" { fingerprint := "fp1" } = Auth.Accept ∨
      auth_publickey [("bob", { password := none, keys := ["fp1"] })]
        "bob" { fingerprint := "fp1" } = Auth.Reject (some MethodSet.all))) :=
  auth_publickey_correct [("bob", { password := none, keys := ["fp1"] })]
    "bob" { fingerprint := "fp1" }

/-- C6 counterexample: an error opening the forwarded channel is not
logged and dropped — the unwrap makes the spawned task panic. -/
theorem forward_open_error_panics_cex :
    (forwardTask "example.com" 9999 false true true).panicked = true := rfl

/-- C6 (amended): write and end-of-data errors on the forwarded channel are
dropped and never change the task behaviour; an error opening the channel
makes the spawned task panic (rather than being logged and dropped); in
every case the grant result the handler already returned is success and is
unaffected by the task outcome. -/
theorem forward_errors_isolated (addr : String) (port : Nat)
    (oOk wOk eOk wOk2 eOk2 : Bool) :
    (tcpip_forward addr port oOk wOk eOk).1 = true
    ∧ forwardTask addr port oOk wOk eOk = forwardTask addr port oOk wOk2 eOk2
    ∧ (forwardTask addr port true wOk eOk).panicked = false
    ∧ (forwardTask addr port false wOk eOk).panicked = true := by
  refine ⟨rfl, ?_, rfl, rfl⟩
  cases oOk <;> rfl

/-- C8: every forwarding request is granted regardless of what the spawned
task later does, and on a successful open the detached task opens the
forwarded channel with the requested address and port and the fixed
originator pair ("1.2.3.4", 1234), writes exactly the literal greeting
bytes, then signals end-of-data. -/
theorem tcpip_forward_grants_and_greets (addr : String) (port : Nat)
    (oOk wOk eOk : Bool) :
    (tcpip_forward addr port oOk wOk eOk).1 = true
    ∧ (forwardTask addr port true wOk eOk).ops =
        [FwdOp.openCh addr port "1.2.3.4" 1234, FwdOp.sendData greeting,
         FwdOp.eofOp]
    ∧ greeting = "Hello from a forwarded port" :=
  ⟨rfl, rfl, rfl⟩

/-- C7: the fan-out attempts delivery to exactly the registry entries whose
connection id differs from the sender, independently of which deliveries
fail (a failing destination never stops the remaining attempts), and the
data handler of the sender returns Ok regardless. -/
theorem post_swallows_failures (selfId : ConnId) (msg : List Char)
    (deliver : Handle → ChannelId → List Char → Bool) (r : Registry)
    (channel : ChannelId) (bytes : List Nat) :
    ((postAttempts selfId msg deliver r).map (fun a => (a.conn, a.channel)) =
      postDests selfId r)
    ∧ (∀ e ∈ r, e.1.1 ≠ selfId →
        (e.1.1, e.1.2) ∈
          (postAttempts selfId msg deliver r).map (fun a => (a.conn, a.channel)))
    ∧ (dataHandler selfId r channel bytes deliver).isOk = true := by
  have hmapeq : (postAttempts selfId msg deliver r).map (fun a => (a.conn, a.channel)) =
      postDests selfId r := by
    induction r with
    | nil => rfl
    | cons e es ih =>
      obtain ⟨⟨id, ch⟩, s⟩ := e
      by_cases h : id ≠ selfId
      · simp [postAttempts, postDests, h, ih]
      · simp [postAttempts, postDests, h, ih]
  refine ⟨hmapeq, ?_, rfl⟩
  intro e he hne
  rw [hmapeq]
  unfold postDests
  exact List.mem_filterMap.mpr ⟨e, he, by simp [hne]⟩

/-- C9: every channel-open is granted and registers its key bound to the
session handle; a sequence of registrations with pairwise-distinct keys
yields a registry containing exactly those entries (no lost inserts), and
no core handler event removes registry keys. -/
theorem channel_open_registers (s : Server) (ch : ChannelId) (hd : Handle)
    (evs : List ((ConnId × ChannelId) × Handle))
    (hnd : (evs.map (fun e => e.1)).Nodup) :
    (channel_open_session s ch hd).2 = true
    ∧ regFind (channel_open_session s ch hd).1.clients (s.id, ch) = some hd
    ∧ (registerAll [] evs).length = evs.length
    ∧ (∀ e ∈ evs, regFind (registerAll [] evs) e.1 = some e.2)
    ∧ (∀ r : Registry, ∀ ev : HEvent, ∀ k, k ∈ regKeys r →
        k ∈ regKeys (stepRegistry r ev)) := by
  refine ⟨rfl, regFind_regInsert_self _ _ _, ?_, ?_, ?_⟩
  · have h := registerAll_length evs hnd [] (fun e _ => rfl)
    simpa using h
  · exact registerAll_find evs hnd []
  · intro r ev k hk
    cases ev with
    | openSession conn channel handle => exact regKeys_regInsert_mem _ _ _ _ hk
    | dataEvent conn channel bytes => exact hk
    | authPw u p => exact hk
    | authPk u kk => exact hk
    | forward a p => exact hk

/-- Witness for C9 at two concrete registrations with distinct keys. -/
theorem channel_open_registers_witness :
    (channel_open_session { clients := [], users := [], id := 0 } 1 5).2 = true
    ∧ regFind (channel_open_session { clients := [], users := [], id := 0 }
        1 5).1.clients (0, 1) = some 5
    ∧ (registerAll [] [((0, 1), 10), ((1, 2), 11)]).length =
        ([((0, 1), 10), ((1, 2), 11)] :
          List ((ConnId × ChannelId) × Handle)).length
    ∧ (∀ e ∈ ([((0, 1), 10), ((1, 2), 11)] :
          List ((ConnId × ChannelId) × Handle)),
        regFind (registerAll [] [((0, 1), 10), ((1, 2), 11)]) e.1 = some e.2)
    ∧ (∀ r : Registry, ∀ ev : HEvent, ∀ k, k ∈ regKeys r →
        k ∈ regKeys (stepRegistry r ev)) :=
  channel_open_registers { clients := [], users := [], id := 0 } 1 5
    [((0, 1), 10), ((1, 2), 11)] (by decide)

/-! Helper lemmas about the fan-out destination list, for the broadcast
counting property. -/

theorem postDests_eq_filter (selfId : ConnId) (r : Registry) :
    postDests selfId r =
      (r.filter (fun e => decide (e.1.1 ≠ selfId))).map (fun e => e.1) := by
  induction r with
  | nil => rfl
  | cons e es ih =>
    by_cases h : e.1.1 ≠ selfId
    · have h1 : postDests selfId (e :: es) = e.1 :: postDests selfId es := by
        simp [postDests, List.filterMap_cons, h]
      have h2 : (e :: es).filter (fun x => decide (x.1.1 ≠ selfId)) =
          e :: es.filter (fun x => decide (x.1.1 ≠ selfId)) := by
        simp [List.filter_cons, h]
      rw [h1, h2, List.map_cons, ih]
    · have h1 : postDests selfId (e :: es) = postDests selfId es := by
        simp [postDests, List.filterMap_cons, h]
      have h2 : (e :: es).filter (fun x => decide (x.1.1 ≠ selfId)) =
          es.filter (fun x => decide (x.1.1 ≠ selfId)) := by
        simp [List.filter_cons, h]
      rw [h1, h2, ih]

theorem postDests_conn_ne (selfId : ConnId) (r : Registry) :
    ∀ k ∈ postDests selfId r, k.1 ≠ selfId := by
  intro k hk
  unfold postDests at hk
  obtain ⟨e, _, hcond⟩ := List.mem_filterMap.mp hk
  by_cases h : e.1.1 ≠ selfId
  · simp [h] at hcond
    rw [← hcond]
    exact h
  · simp [h] at hcond

theorem keysNodup_of_connNodup (r : Registry)
    (hnd : (r.map (fun e => e.1.1)).Nodup) : (r.map (fun e => e.1)).Nodup := by
  have heq : r.map (fun e => e.1.1) =
      (r.map (fun e => e.1)).map (fun k => k.1) := by
    simp [List.map_map]
  rw [heq] at hnd
  exact List.Nodup.of_map _ hnd

theorem postDests_nodup (selfId : ConnId) (r : Registry)
    (hnd : (r.map (fun e => e.1.1)).Nodup) : (postDests selfId r).Nodup := by
  rw [postDests_eq_filter]
  have hsub : List.Sublist
      ((r.filter (fun e => decide (e.1.1 ≠ selfId))).map (fun e => e.1))
      (r.map (fun e => e.1)) :=
    List.Sublist.map _ (List.filter_sublist r)
  exact List.Nodup.sublist hsub (keysNodup_of_connNodup r hnd)

/-- With pairwise-distinct connection ids and a registered sender entry,
dropping the sender entry shrinks the registry by exactly one. -/
theorem filter_ne_length (S : ConnId) (r : Registry)
    (hnd : (r.map (fun e => e.1.1)).Nodup)
    (e₀ : (ConnId × ChannelId) × Handle) (he : e₀ ∈ r) (hS : e₀.1.1 = S) :
    (r.filter (fun e => decide (e.1.1 ≠ S))).length + 1 = r.length := by
  induction r with
  | nil => cases he
  | cons a es ih =>
    simp only [List.map_cons, List.nodup_cons] at hnd
    rcases List.mem_cons.mp he with he0 | he0
    · have hall : ∀ e ∈ es, ¬e.1.1 = S := by
        intro e hees heq
        apply hnd.1
        rw [← he0, hS, ← heq]
        exact List.mem_map_of_mem _ hees
      have hfes : es.filter (fun e => decide (e.1.1 ≠ S)) = es := by
        rw [List.filter_eq_self]
        intro e hees
        simpa using fun heq => hall e hees heq
      have haS : a.1.1 = S := by rw [← he0, hS]
      rw [show (a :: es).filter (fun e => decide (e.1.1 ≠ S)) =
            es.filter (fun e => decide (e.1.1 ≠ S)) from by
          simp [List.filter_cons, haS],
        hfes, List.length_cons]
    · have ha : ¬a.1.1 = S := by
        intro heq
        apply hnd.1
        rw [heq, ← hS]
        exact List.mem_map_of_mem _ he0
      have hih := ih hnd.2 he0
      rw [show (a :: es).filter (fun e => decide (e.1.1 ≠ S)) =
            a :: es.filter (fun e => decide (e.1.1 ≠ S)) from by
          simp [List.filter_cons, ha],
        List.length_cons, List.length_cons]
      omega

/-- Pairing every destination with the same message preserves counts. -/
theorem count_map_pair (l : List (ConnId × ChannelId)) (c : List Char)
    (x : ConnId × ChannelId) :
    (l.map (fun d => (d, c))).count (x, c) = l.count x := by
  induction l with
  | nil => rfl
  | cons a as ih =>
    simp [List.count_cons, ih, Prod.ext_iff]

/-- Counting in a duplicate-free destination list: a member occurs once. -/
theorem count_eq_one_of_mem_nodup (l : List (ConnId × ChannelId))
    (hnd : l.Nodup) (x : ConnId × ChannelId) (hx : x ∈ l) : l.count x = 1 := by
  induction l with
  | nil => cases hx
  | cons a as ih =>
    rw [List.nodup_cons] at hnd
    rcases List.mem_cons.mp hx with hx | hx
    · subst hx
      have hz : as.count x = 0 := List.count_eq_zero.mpr hnd.1
      simp [List.count_cons, hz]
    · have hne : x ≠ a := fun hh => hnd.1 (hh ▸ hx)
      simp [List.count_cons, ih hnd.2 hx, hne]

/-- C2: with one registered channel per connection (pairwise-distinct
connection ids) and the sender S registered with its originating channel, a
data event delivers the formatted line exactly once to each other
connection's channel (fan-out skips the sender), exactly once to the
sender's own originating channel (explicit echo), and in total exactly once
per registered connection. -/
theorem broadcast_exactly_once (r : Registry) (S : ConnId) (chS : ChannelId)
    (hdl : Handle) (bytes : List Nat)
    (hnd : (r.map (fun e => e.1.1)).Nodup)
    (hmem : ((S, chS), hdl) ∈ r) :
    (∀ d ∈ dataDeliveries S r chS bytes, d.2 = formatGotData bytes)
    ∧ (∀ e ∈ r, e.1.1 ≠ S →
        (dataDeliveries S r chS bytes).count (e.1, formatGotData bytes) = 1)
    ∧ (dataDeliveries S r chS bytes).count ((S, chS), formatGotData bytes) = 1
    ∧ (dataDeliveries S r chS bytes).length = r.length := by
  have hinj : Function.Injective
      (fun d : ConnId × ChannelId => (d, formatGotData bytes)) := by
    intro a b hab
    exact ((Prod.mk.injEq _ _ _ _).mp hab).1
  refine ⟨?_, ?_, ?_, ?_⟩
  · intro d hd
    unfold dataDeliveries at hd
    rcases List.mem_append.mp hd with hd | hd
    · obtain ⟨x, _, hx⟩ := List.mem_map.mp hd
      rw [← hx]
    · simp only [List.mem_singleton] at hd
      rw [hd]
  · intro e he hne
    unfold dataDeliveries
    rw [List.count_append]
    have h1 : ((postDests S r).map
          (fun d => (d, formatGotData bytes))).count
        (e.1, formatGotData bytes) = (postDests S r).count e.1 :=
      count_map_pair _ _ _
    have hmemd : e.1 ∈ postDests S r := by
      rw [postDests_eq_filter]
      exact List.mem_map_of_mem _ (List.mem_filter.mpr ⟨he, by simpa using hne⟩)
    have h2 : (postDests S r).count e.1 = 1 :=
      count_eq_one_of_mem_nodup _ (postDests_nodup S r hnd) _ hmemd
    have hkne : e.1 ≠ (S, chS) := by
      intro hh
      apply hne
      rw [hh]
    have h3 : ([((S, chS), formatGotData bytes)] :
        List ((ConnId × ChannelId) × List Char)).count
        (e.1, formatGotData bytes) = 0 := by
      rw [List.count_eq_zero]
      simp only [List.mem_singleton]
      intro hh
      exact hkne ((Prod.mk.injEq _ _ _ _).mp hh).1
    rw [h1, h2, h3]
  · unfold dataDeliveries
    rw [List.count_append]
    have h0 : (S, chS) ∉ postDests S r := fun hh => postDests_conn_ne S r _ hh rfl
    have h1 : ((postDests S r).map
          (fun d => (d, formatGotData bytes))).count
        ((S, chS), formatGotData bytes) = (postDests S r).count (S, chS) :=
      count_map_pair _ _ _
    have h2 : (postDests S r).count (S, chS) = 0 := List.count_eq_zero.mpr h0
    rw [h1, h2]
    simp
  · unfold dataDeliveries
    rw [List.length_append, List.length_map, postDests_eq_filter,
      List.length_map]
    have hlen := filter_ne_length S r hnd ((S, chS), hdl) hmem rfl
    simpa using hlen

/-- Witness for C2: two connections with one channel each, sender 0 on
channel 1, payload "hi". -/
theorem broadcast_exactly_once_witness :
    (∀ d ∈ dataDeliveries 0 [((0, 1), 10), ((1, 2), 11)] 1 [104, 105],
      d.2 = formatGotData [104, 105])
    ∧ (∀ e ∈ ([((0, 1), 10), ((1, 2), 11)] : Registry), e.1.1 ≠ 0 →
        (dataDeliveries 0 [((0, 1), 10), ((1, 2), 11)] 1 [104, 105]).count
          (e.1, formatGotData [104, 105]) = 1)
    ∧ (dataDeliveries 0 [((0, 1), 10), ((1, 2), 11)] 1 [104, 105]).count
        ((0, 1), formatGotData [104, 105]) = 1
    ∧ (dataDeliveries 0 [((0, 1), 10), ((1, 2), 11)] 1 [104, 105]).length =
        ([((0, 1), 10), ((1, 2), 11)] : Registry).length :=
  broadcast_exactly_once [((0, 1), 10), ((1, 2), 11)] 0 1 10 [104, 105]
    (by decide) (by decide)

/-- Unfolding the lossy decoder one sequence at a time. -/
theorem utf8Lossy_cons (b : Nat) (rest : List Nat) :
    utf8Lossy (b :: rest) =
      (utf8DecodeOne b rest).1 :: utf8Lossy (utf8DecodeOne b rest).2 := by
  rw [utf8Lossy]

/-- Unfolding the validity grammar when one valid sequence starts here. -/
theorem utf8ValidB_cons_some (b : Nat) (rest r2 : List Nat)
    (h : utf8ValidStep b rest = some r2) :
    utf8ValidB (b :: rest) = utf8ValidB r2 := by
  rw [utf8ValidB]
  split
  · next r3 h3 =>
    rw [h] at h3
    injection h3 with h3
    rw [h3]
  · next h3 =>
    rw [h] at h3
    cases h3

/-- Unfolding the validity grammar when no valid sequence starts here. -/
theorem utf8ValidB_cons_none (b : Nat) (rest : List Nat)
    (h : utf8ValidStep b rest = none) : utf8ValidB (b :: rest) = false := by
  rw [utf8ValidB]
  split
  · next r3 h3 =>
    rw [h] at h3
    cases h3
  · rfl

/-- When one decoding step does not emit the replacement character, the
consumed bytes form a valid sequence and the decoder resumes exactly where
the validity grammar does. -/
theorem utf8ValidStep_of_decode (b : Nat) (rest : List Nat)
    (hc : (utf8DecodeOne b rest).1 ≠ replacementChar) :
    utf8ValidStep b rest = some (utf8DecodeOne b rest).2 := by
  by_cases h1 : b < 0x80
  · simp [utf8DecodeOne, utf8ValidStep, h1]
  · by_cases h2 : (0xC2 ≤ b && b ≤ 0xDF) = true
    · cases rest with
      | nil => simp [utf8DecodeOne, h1, h2] at hc
      | cons b1 rest1 =>
        by_cases hc1 : isCont b1 = true
        · simp [utf8DecodeOne, utf8ValidStep, h1, h2, hc1]
        · simp [utf8DecodeOne, h1, h2, hc1] at hc
    · by_cases h3 : (0xE0 ≤ b && b ≤ 0xEF) = true
      · cases rest with
        | nil => simp [utf8DecodeOne, h1, h2, h3] at hc
        | cons b1 rest1 =>
          by_cases hf : valid3First b b1 = true
          · cases rest1 with
            | nil => simp [utf8DecodeOne, h1, h2, h3, hf] at hc
            | cons b2 rest2 =>
              by_cases hc2 : isCont b2 = true
              · simp [utf8DecodeOne, utf8ValidStep, h1, h2, h3, hf, hc2]
              · simp [utf8DecodeOne, h1, h2, h3, hf, hc2] at hc
          · simp [utf8DecodeOne, h1, h2, h3, hf] at hc
      · by_cases h4 : (0xF0 ≤ b && b ≤ 0xF4) = true
        · cases rest with
          | nil => simp [utf8DecodeOne, h1, h2, h3, h4] at hc
          | cons b1 rest1 =>
            by_cases hf : valid4First b b1 = true
            · cases rest1 with
              | nil => simp [utf8DecodeOne, h1, h2, h3, h4, hf] at hc
              | cons b2 rest2 =>
                by_cases hc2 : isCont b2 = true
                · cases rest2 with
                  | nil => simp [utf8DecodeOne, h1, h2, h3, h4, hf, hc2] at hc
                  | cons b3 rest3 =>
                    by_cases hc3 : isCont b3 = true
                    · simp [utf8DecodeOne, utf8ValidStep, h1, h2, h3, h4, hf,
                        hc2, hc3]
                    · simp [utf8DecodeOne, h1, h2, h3, h4, hf, hc2, hc3] at hc
                · simp [utf8DecodeOne, h1, h2, h3, h4, hf, hc2] at hc
            · simp [utf8DecodeOne, h1, h2, h3, h4, hf] at hc
        · simp [utf8DecodeOne, h1, h2, h3, h4] at hc

/-- Lossy decoding that emits no replacement character certifies that the
input was well-formed UTF-8. -/
theorem utf8Valid_of_no_replacement : ∀ l : List Nat,
    replacementChar ∉ utf8Lossy l → utf8ValidB l = true := by
  intro l
  induction l using utf8Lossy.induct with
  | case1 =>
    intro _
    rw [utf8ValidB]
  | case2 b rest ih =>
    intro hmem
    rw [utf8Lossy_cons] at hmem
    have hc : (utf8DecodeOne b rest).1 ≠ replacementChar := by
      intro hh
      exact hmem (hh ▸ List.mem_cons_self _ _)
    have htl : replacementChar ∉ utf8Lossy (utf8DecodeOne b rest).2 :=
      fun hh => hmem (List.mem_cons_of_mem _ hh)
    rw [utf8ValidB_cons_some b rest _ (utf8ValidStep_of_decode b rest hc)]
    exact ih htl

/-- C5: the data handler formats every inbound byte sequence, valid UTF-8
or not, as the line "Got data: " ++ lossy decoding ++ CR LF; the decoding
is total, and on every ill-formed input at least one replacement character
U+FFFD is substituted instead of failing. -/
theorem data_format_lossy (bytes : List Nat) :
    formatGotData bytes =
      ("Got data: ").data ++ utf8Lossy bytes ++ ['\r', '\n']
    ∧ (utf8ValidB bytes = false → replacementChar ∈ utf8Lossy bytes) := by
  refine ⟨rfl, ?_⟩
  intro hinv
  by_contra hmem
  have hv := utf8Valid_of_no_replacement bytes hmem
  rw [hv] at hinv
  cases hinv

/-- Witness for C5 at the ill-formed input [0xFF]. -/
theorem data_format_lossy_witness :
    formatGotData [0xFF] =
      ("Got data: ").data ++ utf8Lossy [0xFF] ++ ['\r', '\n']
    ∧ replacementChar ∈ utf8Lossy [0xFF] :=
  ⟨(data_format_lossy [0xFF]).1,
    (data_format_lossy [0xFF]).2 (utf8ValidB_cons_none 0xFF [] (by decide))⟩

end RusshServer
